import Mathlib

/-!
Verification of the growable-array container implemented in src/vector.h
(template class vector with fields arr_, sz_, cap_).

Two granularities of shallow embedding are used:

* Vec: the container viewed through its fields. alloc models whether
  arr_ is a non-null pointer, elems models the sequence of live
  elements in slots [0, sz_), cap models cap_. Used for the
  bookkeeping operations (move assignment, empty, clear, the
  comparison operators, and the failure-injected reserve/emplace_back).

* RawVec / Block: the allocated block viewed slot by slot. A slot
  holding a live element is some x, a raw (unconstructed) slot is
  none; alloc_traits::construct sets a slot, alloc_traits::destroy
  clears it. The length of the block is cap_, the field sz models
  sz_. Used for the shifting algorithms (insert, erase, reserve,
  emplace_back) where element lifetimes matter.

Fallible operations return Except VErr: outOfRange models the thrown
std::out_of_range, ub models an execution step whose behaviour is
undefined in the source (constructing past a block, destroying a slot
that holds no live element, a negative iterator distance converted to
size_type).
-/

set_option maxHeartbeats 1000000

inductive VErr : Type where
  | outOfRange : VErr
  | ub : VErr
deriving DecidableEq

/-- Field-level view of the container: alloc models arr_ != nullptr,
elems the live elements of slots [0, sz_), cap the field cap_. -/
structure Vec (α : Type) : Type where
  alloc : Bool
  elems : List α
  cap : Nat
deriving DecidableEq

/-- size(): returns sz_ (vector.h line 512). -/
def Vec.size {α : Type} (v : Vec α) : Nat := v.elems.length

/-- Default constructor: arr_ = nullptr, sz_ = 0, cap_ = 0 (line 340). -/
def Vec.new {α : Type} : Vec α := ⟨false, [], 0⟩

/-- clear(): destroys every live element and sets sz_ = 0; arr_ and
cap_ are untouched (lines 522-527). -/
def Vec.clear {α : Type} (v : Vec α) : Vec α := ⟨v.alloc, [], v.cap⟩

/-- empty(): returns true iff arr_ == nullptr (lines 557-560). -/
def Vec.empty {α : Type} (v : Vec α) : Bool :=
  if v.alloc = false then true else false

/-- Move assignment into a distinct container (lines 1101-1113):
the destination deallocates its own block and takes over the source
block, size and capacity; the source pointer is nulled and its sz_
zeroed, but its cap_ is left as it was. Returns (destination, source)
after the assignment. -/
def Vec.moveAssign {α : Type} (dst src : Vec α) : Vec α × Vec α :=
  (⟨src.alloc, src.elems, src.cap⟩, ⟨false, [], src.cap⟩)

/-- Loop of std::equal(lhs.begin(), lhs.end(), rhs.begin()) as used by
operator== (line 1176): compares until the first range is exhausted. -/
def eqLoop {α : Type} [DecidableEq α] : List α → List α → Bool
  | [], _ => true
  | _ :: _, [] => false
  | x :: xs, y :: ys => if x = y then eqLoop xs ys else false

/-- operator== (lines 1174-1177): sizes equal and std::equal. -/
def vecEq {α : Type} [DecidableEq α] (a b : Vec α) : Bool :=
  a.size == b.size && eqLoop a.elems b.elems

/-- Loop of std::lexicographical_compare as used by operator<
(line 1192). -/
def lexLoop {α : Type} [LinearOrder α] : List α → List α → Bool
  | [], ys => !ys.isEmpty
  | _ :: _, [] => false
  | x :: xs, y :: ys => if x < y then true else if y < x then false else lexLoop xs ys

/-- operator< (lines 1188-1194): if the sizes differ the smaller size
wins, otherwise lexicographic comparison of the elements. -/
def vecLt {α : Type} [LinearOrder α] (a b : Vec α) : Bool :=
  if a.size ≠ b.size then decide (a.size < b.size) else lexLoop a.elems b.elems

/-- operator!= (line 1183): negation of operator==. -/
def vecNe {α : Type} [DecidableEq α] (a b : Vec α) : Bool := !(vecEq a b)

/-- operator> (line 1200): rhs < lhs. -/
def vecGt {α : Type} [LinearOrder α] (a b : Vec α) : Bool := vecLt b a

/-- operator<= (line 1207): not (rhs < lhs). -/
def vecLe {α : Type} [LinearOrder α] (a b : Vec α) : Bool := !(vecLt b a)

/-- operator>= (line 1214): not (lhs < rhs). -/
def vecGe {α : Type} [LinearOrder α] (a b : Vec α) : Bool := !(vecLt a b)

/-- A raw block of cap_ slots: some x is a live element, none is raw
storage. -/
abbrev Block (α : Type) : Type := List (Option α)

/-- Reading slot i of a block; slots past the end of the block read as
raw, which only happens on paths that are undefined in the source. -/
def blockGet {α : Type} (b : Block α) (i : Nat) : Option α := b.getD i none

/-- Slot-level view of the container: blk models the allocated block
(its length is cap_), sz models sz_. -/
structure RawVec (α : Type) : Type where
  blk : Block α
  sz : Nat
deriving DecidableEq

/-- capacity(): the number of slots of the allocated block. -/
def RawVec.cap {α : Type} (r : RawVec α) : Nat := r.blk.length

/-- Default-constructed container at slot level. -/
def RawVec.new {α : Type} : RawVec α := ⟨[], 0⟩

/-- A container holding the elements xs in a block of c slots
(slots [xs.length, c) raw). -/
def mkRaw {α : Type} (xs : List α) (c : Nat) : RawVec α :=
  ⟨xs.map some ++ List.replicate (c - xs.length) none, xs.length⟩

/-- The loop of reserve (lines 534-537) and of the copy phases of
emplace_back: for k steps construct newb[i] from old[i], advancing i.
The target slots are given as an arbitrary block so

  that the partially filled new block of emplace_back (which already
holds the new element at index sz_) is covered as well. -/
def copyRange {α : Type} (old : Block α) : Block α → Nat → Nat → Block α
  | newb, _, 0 => newb
  | newb, i, k+1 => copyRange old (newb.set i (blockGet old i)) (i+1) k

/-- reserve without its failure paths (lines 530-554): allocate newcap
raw slots, construct every live element into them in order, adopt the
new block. The source performs no newcap-versus-cap_ comparison. -/
def reserveRaw {α : Type} (r : RawVec α) (newcap : Nat) : RawVec α :=
  ⟨copyRange r.blk (List.replicate newcap none) 0 r.sz, r.sz⟩

/-- reserve (lines 530-554). The construction loop writes sz_ elements
into the new block, so a call with newcap < sz_ writes past the block:
that path is the ub branch. There is no guard against newcap ≤ cap_:
the reallocation happens unconditionally. -/
def reserveOp {α : Type} (r : RawVec α) (newcap : Nat) : Except VErr (RawVec α) :=
  if newcap < r.sz then .error .ub else .ok (reserveRaw r newcap)

/-- The growth step shared by the multi-element inserts
(lines 611-613, 657-659, 682-684, 821-823, 876-878):
if sz_ + count > cap_ then reserve(max(cap_ * 2, sz_ + count)). -/
def growFor {α : Type} (r : RawVec α) (count : Nat) : Except VErr (RawVec α) :=
  if r.sz + count > r.blk.length then reserveOp r (max (r.blk.length * 2) (r.sz + count)) else .ok r

/-- The tail-shifting loop of the inserts (e.g. lines 826-830): for i
from sz_ down to index+1, construct arr_[i + count - 1] from
arr_[i - 1] and destroy arr_[i - 1]. The last argument is the loop
counter i. -/
def shiftLoop {α : Type} (idx c : Nat) : Block α → Nat → Block α
  | b, 0 => b
  | b, i+1 =>
    if idx < i + 1 then shiftLoop idx c ((b.set (i + c) (blockGet b i)).set i none) i else b

/-- The writing loop of the inserts (e.g. lines 831-833): construct
arr_[index + i] from the i-th source value, for each source value in
order. -/
def writeLoopO {α : Type} : Block α → Nat → List (Option α) → Block α
  | b, _, [] => b
  | b, i, x :: rest => writeLoopO (b.set i x) (i+1) rest

/-- Reading count source values starting at slot i, as done by the
temporary vector<T> temp(first, last) of the aliased insert branch
(line 653). -/
def readRange {α : Type} (b : Block α) : Nat → Nat → List (Option α)
  | _, 0 => []
  | i, k+1 => blockGet b i :: readRange b (i+1) k

/-- The writing loop of insert when the source iterators point into
the container itself and the aliasing branch was not taken: each read
dereferences the current block. -/
def writeFromSelf {α : Type} : Block α → Nat → Nat → Nat → Block α
  | b, _, _, 0 => b
  | b, d, s, k+1 => writeFromSelf (b.set d (blockGet b s)) (d+1) (s+1) k

/-- emplace_back (lines 746-784). If sz_ == cap_: newcap is cap_ * 2
(or 1 from 0), the new element is constructed first, directly into the
new block at index sz_ (line 752), then the old elements are moved in,
then the new block is adopted and sz_ incremented. Otherwise construct
in place at sz_ and increment. -/
def emplaceBackRaw {α : Type} (r : RawVec α) (x : α) : RawVec α :=
  if r.sz = r.blk.length then
    let newcap := if 0 < r.blk.length then r.blk.length * 2 else 1
    ⟨copyRange r.blk ((List.replicate newcap (none : Option α)).set r.sz (some x)) 0 r.sz, r.sz + 1⟩
  else
    ⟨r.blk.set r.sz (some x), r.sz + 1⟩

/-- push_back delegates to emplace_back (lines 787-794); a sequence of
push_back calls is a fold. -/
def pushAllRaw {α : Type} (xs : List α) : RawVec α :=
  xs.foldl emplaceBackRaw RawVec.new

/-- insert_impl (lines 708-740), the single-element insert. Position
pos is the signed offset of the iterator from begin(). Validates
pos in [begin, end]; at end delegates to push_back; otherwise grows if
full, shifts the tail right by one and constructs the value into the
gap. -/
def insertImplRaw {α : Type} (r : RawVec α) (pos : Int) (value : α) : Except VErr (RawVec α × Nat) :=
  if pos < 0 ∨ (r.sz : Int) < pos then .error .outOfRange
  else if pos = (r.sz : Int) then
    .ok (emplaceBackRaw r value, r.sz)
  else
    match (if r.sz = r.blk.length then reserveOp r (if 0 < r.blk.length then r.blk.length * 2 else 1) else .ok r) with
    | .error e => .error e
    | .ok r1 =>
      let idx := pos.toNat
      .ok (⟨(shiftLoop idx 1 r1.blk r.sz).set idx (some value), r.sz + 1⟩, idx)

/-- insert(pos, count, value) (lines 809-844). The source computes the
offset and returns early when count == 0 BEFORE validating pos
(lines 811-815), so the out-of-range check is skipped in that case. -/
def insertCountRaw {α : Type} (r : RawVec α) (pos : Int) (count : Nat) (value : α) : Except VErr (RawVec α × Nat) :=
  if count = 0 then .ok (r, pos.toNat)
  else if pos < 0 ∨ (r.sz : Int) < pos then .error .outOfRange
  else
    match growFor r count with
    | .error e => .error e
    | .ok r1 =>
      let idx := pos.toNat
      .ok (⟨writeLoopO (shiftLoop idx count r1.blk r.sz) idx (List.replicate count (some value)), r.sz + count⟩, idx)

/-- insert(pos, ilist) (lines 861-899): validates pos first, then the
usual count-0 early return, growth, shift and write. -/
def insertIlistRaw {α : Type} (r : RawVec α) (pos : Int) (src : List α) : Except VErr (RawVec α × Nat) :=
  if pos < 0 ∨ (r.sz : Int) < pos then .error .outOfRange
  else
    let count := src.length
    let idx := pos.toNat
    if count = 0 then .ok (r, idx)
    else
      match growFor r count with
      | .error e => .error e
      | .ok r1 =>
        .ok (⟨writeLoopO (shiftLoop idx count r1.blk r.sz) idx (src.map some), r.sz + count⟩, idx)

/-- The random-access insert_dispatch (lines 639-705), specialised to
source iterators that are offsets f and l into the container itself.
Validates pos first; a negative std::distance converted to size_type
is the ub branch; count 0 returns early; the aliasing test
first >= begin && first < end && last > begin && last <= end
(line 652) decides whether the source range is first materialised into
an independent temporary (line 653) or read live during the write
loop. -/
def insertDispatchSelf {α : Type} (r : RawVec α) (pos f l : Int) : Except VErr (RawVec α × Nat) :=
  if pos < 0 ∨ (r.sz : Int) < pos then .error .outOfRange
  else if l - f < 0 then .error .ub
  else
    let count := (l - f).toNat
    let idx := pos.toNat
    if count = 0 then .ok (r, idx)
    else if 0 ≤ f ∧ f < (r.sz : Int) ∧ 0 < l ∧ l ≤ (r.sz : Int) then
      let temp := readRange r.blk f.toNat count
      match growFor r count with
      | .error e => .error e
      | .ok r1 =>
        .ok (⟨writeLoopO (shiftLoop idx count r1.blk r.sz) idx temp, r.sz + count⟩, idx)
    else
      match growFor r count with
      | .error e => .error e
      | .ok r1 =>
        .ok (⟨writeFromSelf (shiftLoop idx count r1.blk r.sz) idx f.toNat count, r.sz + count⟩, idx)

/-- The forward compaction loop of the range erase (lines 1028-1031):
for i from index_last while i < sz_, construct arr_[index_first] from
arr_[i], destroy arr_[i], increment both. Arguments: block, current
index_first, current i, remaining iteration count; returns the final
block and the final index_first (the return value of erase). -/
def eraseShiftLoop {α : Type} : Block α → Nat → Nat → Nat → Block α × Nat
  | b, idxf, _, 0 => (b, idxf)
  | b, idxf, i, k+1 => eraseShiftLoop ((b.set idxf (blockGet b i)).set i none) (idxf+1) (i+1) k

/-- The destruction loop of the range erase (lines 1024-1026): destroy
slots [i, i + k). -/
def destroyRange {α : Type} : Block α → Nat → Nat → Block α
  | b, _, 0 => b
  | b, i, k+1 => destroyRange (b.set i none) (i+1) k

/-- erase(first, last) (lines 1014-1036). Validates
first >= begin, last <= end, first <= end; a negative last - first
converted to size_type is the ub branch. Destroys [first, last),
compacts the tail forward and reduces sz_ by the count. No
reallocation happens. -/
def eraseRangeRaw {α : Type} (r : RawVec α) (f l : Int) : Except VErr (RawVec α × Nat) :=
  if f < 0 ∨ (r.sz : Int) < l ∨ (r.sz : Int) < f then .error .outOfRange
  else if l - f < 0 then .error .ub
  else
    let count := (l - f).toNat
    let i1 := f.toNat
    let i2 := l.toNat
    let b1 := destroyRange r.blk i1 count
    let p := eraseShiftLoop b1 i1 i2 (r.sz - i2)
    .ok (⟨p.1, r.sz - count⟩, p.2)

/-- erase(pos), single element (lines 974-991 and the identical
const_iterator overload at 994-1011). The bounds check accepts
pos == end(). Destroying arr_[index] when that slot holds no live
element (exactly the pos == end() case) is undefined in the source and
is the ub branch here; for pos == end() on an empty container the
source would additionally run the compaction loop with the underflowed
bound sz_ - 1 and then wrap sz_ below zero. -/
def eraseSingleRaw {α : Type} (r : RawVec α) (pos : Int) : Except VErr (RawVec α × Nat) :=
  if pos < 0 ∨ (r.sz : Int) < pos then .error .outOfRange
  else
    let idx := pos.toNat
    match blockGet r.blk idx with
    | none => .error .ub
    | some _ =>
      let b1 := r.blk.set idx none
      let p := eraseShiftLoop b1 idx (idx+1) (r.sz - 1 - idx)
      .ok (⟨p.1, r.sz - 1⟩, idx)

/-- Failure injection for element construction: o k tells whether the
k-th construct call succeeds. -/
abbrev Oracle : Type := Nat → Bool

/-- The failure-injected copy loop of reserve and of the growth path
of emplace_back: each construct call consumes one oracle counter; on
the first failing call the partially filled new block is destroyed and
deallocated (lines 539-545, 758-764), which touches only the new
block. -/
def moveLoopF {α : Type} (o : Oracle) (old : Block α) : Block α → Nat → Nat → Nat → Except Nat (Block α × Nat)
  | newb, _, ctr, 0 => .ok (newb, ctr)
  | newb, i, ctr, k+1 =>
    if o ctr then moveLoopF o old (newb.set i (blockGet old i)) (i+1) (ctr+1) k
    else .error ctr

/-- reserve with failure injection (lines 530-554): on a failing
construct call the catch block destroys the constructed prefix of the
new block and deallocates it; arr_, sz_ and cap_ are untouched, so the
error value carries the unchanged container. -/
def reserveFRaw {α : Type} (o : Oracle) (k : Nat) (r : RawVec α) (newcap : Nat) : Except (RawVec α) (RawVec α × Nat) :=
  match moveLoopF o r.blk (List.replicate newcap (none : Option α)) 0 k r.sz with
  | .ok (newb, k2) => .ok (⟨newb, r.sz⟩, k2)
  | .error _ => .error r

/-- emplace_back with failure injection (lines 746-784). On the growth
path the new element is constructed first (line 752, consuming oracle
counter k); if that call or any of the following copy calls fails, the
catch block destroys the copied prefix of the new block and
deallocates it (lines 758-764) and the old block is untouched. On the
in-place path a failing construct leaves sz_ unincremented and the
block unchanged. -/
def emplaceBackFRaw {α : Type} (o : Oracle) (k : Nat) (r : RawVec α) (x : α) : Except (RawVec α) (RawVec α × Nat) :=
  if r.sz = r.blk.length then
    let newcap := if 0 < r.blk.length then r.blk.length * 2 else 1
    if o k then
      match moveLoopF o r.blk ((List.replicate newcap (none : Option α)).set r.sz (some x)) 0 (k+1) r.sz with
      | .ok (newb, k2) => .ok (⟨newb, r.sz + 1⟩, k2)
      | .error _ => .error r
    else .error r
  else
    if o k then .ok (⟨r.blk.set r.sz (some x), r.sz + 1⟩, k+1)
    else .error r

/-! ### List-algebra helpers -/

theorem getD_junction {β : Type} (A : List β) (x : β) (Z : List β) (d : β) (i : Nat)
    (h : i = A.length) : (A ++ x :: Z).getD i d = x := by
  subst h
  rw [List.getD_append_right _ _ _ _ (Nat.le_refl _), Nat.sub_self]
  rfl

theorem blockGet_junction {α : Type} (A : Block α) (x : Option α) (Z : Block α) (i : Nat)
    (h : i = A.length) : blockGet (A ++ x :: Z) i = x :=
  getD_junction A x Z none i h

theorem set_junction {β : Type} (A : List β) (x : β) (Z : List β) (v : β) (i : Nat)
    (h : i = A.length) : (A ++ x :: Z).set i v = A ++ v :: Z := by
  subst h
  rw [List.set_append, if_neg (by omega), Nat.sub_self]
  rfl

theorem getD_map_some {α : Type} (d : α) :
    ∀ (xs : List α) (i : Nat), i < xs.length → (xs.map some).getD i none = some (xs.getD i d) := by
  intro xs
  induction xs with
  | nil => intro i h; simp at h
  | cons x xs ih =>
    intro i h
    cases i with
    | zero => rfl
    | succ n => simpa [List.getD] using ih n (by simpa using h)

theorem getD_replicate_self {β : Type} (d : β) :
    ∀ (m k : Nat), (List.replicate m d).getD k d = d := by
  intro m
  induction m with
  | zero => intro k; rfl
  | succ n ih =>
    intro k
    cases k with
    | zero => rfl
    | succ j => simpa [List.replicate_succ, List.getD] using ih j

/-! ### Loop characterisations -/

/-- The copy loop writes the elements of the middle segment M of the
old block over a same-length gap of the new block, leaving the rest of
the new block alone. -/
theorem copyRange_spec {α : Type} (M : List α) :
    ∀ (P : List α) (R : Block α) (pre gap suf : Block α) (i k : Nat),
      i = P.length → i = pre.length → k = M.length → k = gap.length →
      copyRange (P.map some ++ (M.map some ++ R)) (pre ++ (gap ++ suf)) i k
        = pre ++ (M.map some ++ suf) := by
  induction M with
  | nil =>
    intro P R pre gap suf i k hiP hipre hk hgap
    simp only [List.length_nil] at hk
    subst hk
    have : gap = [] := List.eq_nil_of_length_eq_zero (by omega)
    subst this
    simp [copyRange]
  | cons m M2 ih =>
    intro P R pre gap suf i k hiP hipre hk hgap
    cases gap with
    | nil => simp at hgap hk; omega
    | cons g gap2 =>
      subst hk
      have hget : blockGet (P.map some ++ ((m :: M2).map some ++ R)) i = some m := by
        show blockGet (P.map some ++ (some m :: (M2.map some ++ R))) i = some m
        exact blockGet_junction _ _ _ _ (by simpa using hiP)
      have hset : (pre ++ (g :: gap2 ++ suf)).set i (some m) = pre ++ (some m :: (gap2 ++ suf)) :=
        set_junction pre g (gap2 ++ suf) (some m) i (by simpa using hipre)
      show copyRange _ _ _ (M2.length + 1) = _
      rw [copyRange, hget, hset]
      have e3 : copyRange (P.map some ++ ((m :: M2).map some ++ R))
            (pre ++ (some m :: (gap2 ++ suf))) (i+1) M2.length
          = copyRange ((P ++ [m]).map some ++ (M2.map some ++ R))
            ((pre ++ [some m]) ++ (gap2 ++ suf)) (i+1) M2.length := by
        congr 1 <;> simp
      rw [e3, ih (P ++ [m]) R (pre ++ [some m]) gap2 suf (i + 1) M2.length
        (by simp [hiP]) (by simp [hipre]) rfl (by simpa using hgap)]
      simp

/-- The write loop overwrites a gap of the same length as the source
list with the source values. -/
theorem writeLoopO_spec {α : Type} (src : List (Option α)) :
    ∀ (pre gap suf : Block α) (i : Nat), i = pre.length → src.length = gap.length →
      writeLoopO (pre ++ (gap ++ suf)) i src = pre ++ (src ++ suf) := by
  induction src with
  | nil =>
    intro pre gap suf i hi hlen
    have : gap = [] := List.eq_nil_of_length_eq_zero (by simp at hlen; omega)
    subst this
    simp [writeLoopO]
  | cons x src2 ih =>
    intro pre gap suf i hi hlen
    cases gap with
    | nil => simp at hlen
    | cons g gap2 =>
      have hset : (pre ++ (g :: gap2 ++ suf)).set i x = pre ++ (x :: (gap2 ++ suf)) :=
        set_junction pre g (gap2 ++ suf) x i hi
      rw [writeLoopO, hset]
      have e : pre ++ (x :: (gap2 ++ suf)) = (pre ++ [x]) ++ (gap2 ++ suf) := by simp
      rw [e, ih (pre ++ [x]) gap2 suf (i+1) (by simp [hi]) (by simpa using hlen)]
      simp

/-- The destruction loop turns a middle segment into raw slots. -/
theorem destroyRange_spec {α : Type} (mid : Block α) :
    ∀ (pre suf : Block α) (i k : Nat), i = pre.length → k = mid.length →
      destroyRange (pre ++ (mid ++ suf)) i k
        = pre ++ (List.replicate mid.length (none : Option α) ++ suf) := by
  induction mid with
  | nil =>
    intro pre suf i k hi hk
    simp only [List.length_nil] at hk
    subst hk
    simp [destroyRange]
  | cons x mid2 ih =>
    intro pre suf i k hi hk
    simp only [List.length_cons] at hk
    subst hk
    have hset : (pre ++ (x :: mid2 ++ suf)).set i none = pre ++ ((none : Option α) :: (mid2 ++ suf)) :=
      set_junction pre x (mid2 ++ suf) none i hi
    rw [destroyRange, hset]
    have e : pre ++ ((none : Option α) :: (mid2 ++ suf))
        = (pre ++ [(none : Option α)]) ++ (mid2 ++ suf) := by simp
    rw [e, ih (pre ++ [(none : Option α)]) suf (i+1) mid2.length (by simp [hi]) rfl]
    simp [List.replicate_succ]

/-- The read loop returns exactly the middle segment it is pointed at. -/
theorem readRange_spec {α : Type} (M : Block α) :
    ∀ (P Z : Block α) (i k : Nat), i = P.length → k = M.length →
      readRange (P ++ (M ++ Z)) i k = M := by
  induction M with
  | nil =>
    intro P Z i k hi hk
    simp only [List.length_nil] at hk
    subst hk
    rfl
  | cons x M2 ih =>
    intro P Z i k hi hk
    simp only [List.length_cons] at hk
    subst hk
    have hget : blockGet (P ++ (x :: M2 ++ Z)) i = x := blockGet_junction P x (M2 ++ Z) i hi
    rw [readRange, hget]
    have e : P ++ (x :: M2 ++ Z) = (P ++ [x]) ++ (M2 ++ Z) := by simp
    rw [e, ih (P ++ [x]) Z (i+1) M2.length (by simp [hi]) rfl]

/-- The shifting loop does nothing when the counter already equals the
index. -/
theorem shiftLoop_self {α : Type} (idx c : Nat) (b : Block α) : shiftLoop idx c b idx = b := by
  cases idx with
  | zero => rfl
  | succ n => rw [shiftLoop, if_neg (by omega)]

/-- The shifting loop of insert moves the segment M (the tail of the
live elements, from the insertion point on) up by the insertion count,
leaving a raw gap where M started. -/
theorem shiftLoop_spec {α : Type} (M : List α) :
    ∀ (P : List α) (c0 : Nat) (T : Block α) (idx i : Nat),
      idx = P.length → i = P.length + M.length →
      shiftLoop idx (c0+1) (P.map some ++ (M.map some ++ (List.replicate (c0+1) (none : Option α) ++ T))) i
        = P.map some ++ (List.replicate (c0+1) (none : Option α) ++ (M.map some ++ T)) := by
  induction M using List.reverseRecOn with
  | nil =>
    intro P c0 T idx i hidx hi
    simp only [List.length_nil, Nat.add_zero] at hi
    subst hidx
    subst hi
    simp [shiftLoop_self]
  | append_singleton M2 y ih =>
    intro P c0 T idx i hidx hi
    simp only [List.length_append, List.length_cons, List.length_nil, Nat.zero_add] at hi
    subst hi
    show shiftLoop idx (c0+1) _ (P.length + M2.length + 1) = _
    rw [shiftLoop, if_pos (by omega)]
    have hb : P.map some ++ ((M2 ++ [y]).map some ++ (List.replicate (c0+1) (none : Option α) ++ T))
        = (P ++ M2).map some ++ (some y :: (List.replicate (c0+1) (none : Option α) ++ T)) := by
      simp
    rw [hb]
    rw [blockGet_junction ((P ++ M2).map some) (some y) _ _
      (by simp only [List.length_append, List.length_map])]
    have e2 : (P ++ M2).map some ++ (some y :: (List.replicate (c0+1) (none : Option α) ++ T))
        = ((P ++ M2).map some ++ (some y :: List.replicate c0 (none : Option α))) ++ ((none : Option α) :: T) := by
      simp only [List.replicate_succ', List.append_assoc, List.cons_append, List.singleton_append,
        List.nil_append]
    rw [e2]
    rw [set_junction ((P ++ M2).map some ++ (some y :: List.replicate c0 (none : Option α)))
      (none : Option α) T (some y) _
      (by simp only [List.length_append, List.length_map, List.length_cons, List.length_replicate]
          all_goals omega)]
    have e3 : ((P ++ M2).map some ++ (some y :: List.replicate c0 (none : Option α))) ++ (some y :: T)
        = (P ++ M2).map some ++ (some y :: (List.replicate c0 (none : Option α) ++ (some y :: T))) := by
      simp
    rw [e3]
    rw [set_junction ((P ++ M2).map some) (some y)
      (List.replicate c0 (none : Option α) ++ (some y :: T)) (none : Option α) _
      (by simp only [List.length_append, List.length_map])]
    have e4 : (P ++ M2).map some ++ ((none : Option α) :: (List.replicate c0 (none : Option α) ++ (some y :: T)))
        = P.map some ++ (M2.map some ++ (List.replicate (c0+1) (none : Option α) ++ (some y :: T))) := by
      simp [List.replicate_succ]
    rw [e4]
    rw [ih P c0 (some y :: T) idx (P.length + M2.length) hidx rfl]
    simp

/-- The compaction loop of erase moves the segment B (the live tail
after the erased range) down over the raw gap, keeping the gap just
after the moved tail, and returns the final write index. -/
theorem eraseShiftLoop_spec {α : Type} (B : List α) :
    ∀ (A : List α) (c0 : Nat) (T : Block α) (idxf i k : Nat),
      idxf = A.length → i = A.length + (c0+1) → k = B.length →
      eraseShiftLoop (A.map some ++ (List.replicate (c0+1) (none : Option α) ++ (B.map some ++ T))) idxf i k
        = ((A ++ B).map some ++ (List.replicate (c0+1) (none : Option α) ++ T), A.length + B.length) := by
  induction B with
  | nil =>
    intro A c0 T idxf i k hf hi hk
    simp only [List.length_nil] at hk
    subst hk
    subst hf
    simp [eraseShiftLoop]
  | cons y B2 ih =>
    intro A c0 T idxf i k hf hi hk
    simp only [List.length_cons] at hk
    subst hk
    rw [eraseShiftLoop]
    have hb : A.map some ++ (List.replicate (c0+1) (none : Option α) ++ ((y :: B2).map some ++ T))
        = (A.map some ++ List.replicate (c0+1) (none : Option α)) ++ (some y :: (B2.map some ++ T)) := by
      simp
    rw [hb]
    rw [blockGet_junction (A.map some ++ List.replicate (c0+1) (none : Option α)) (some y) _ _
      (by simp only [List.length_append, List.length_map, List.length_replicate]; omega)]
    have e1 : (A.map some ++ List.replicate (c0+1) (none : Option α)) ++ (some y :: (B2.map some ++ T))
        = A.map some ++ ((none : Option α) :: (List.replicate c0 (none : Option α) ++ (some y :: (B2.map some ++ T)))) := by
      simp [List.replicate_succ]
    rw [e1]
    rw [set_junction (A.map some) (none : Option α)
      (List.replicate c0 (none : Option α) ++ (some y :: (B2.map some ++ T))) (some y) _
      (by simp only [List.length_map, hf])]
    have e2 : A.map some ++ (some y :: (List.replicate c0 (none : Option α) ++ (some y :: (B2.map some ++ T))))
        = (A.map some ++ (some y :: List.replicate c0 (none : Option α))) ++ (some y :: (B2.map some ++ T)) := by
      simp
    rw [e2]
    rw [set_junction (A.map some ++ (some y :: List.replicate c0 (none : Option α))) (some y)
      (B2.map some ++ T) (none : Option α) _
      (by simp only [List.length_append, List.length_map, List.length_cons, List.length_replicate]
          all_goals omega)]
    have e3 : (A.map some ++ (some y :: List.replicate c0 (none : Option α))) ++ ((none : Option α) :: (B2.map some ++ T))
        = (A ++ [y]).map some ++ (List.replicate (c0+1) (none : Option α) ++ (B2.map some ++ T)) := by
      simp [List.replicate_succ']
    rw [e3]
    rw [ih (A ++ [y]) c0 T (idxf+1) (i+1) B2.length
      (by simp [hf]) (by simp only [List.length_append, List.length_cons, List.length_nil]; omega) rfl]
    simp only [Prod.mk.injEq]
    constructor
    · simp
    · simp only [List.length_append, List.length_cons, List.length_nil]
      omega

/-! ### Operation-level helpers -/

/-- reserve produces the same live elements in a fresh block of newcap
slots. -/
theorem reserveRaw_canon {α : Type} (xs : List α) (cp N : Nat) (h : xs.length ≤ N) :
    reserveRaw (mkRaw xs cp) N
      = ⟨xs.map some ++ List.replicate (N - xs.length) (none : Option α), xs.length⟩ := by
  unfold reserveRaw
  have hsz : (mkRaw xs cp).sz = xs.length := rfl
  rw [hsz]
  have hcpy : copyRange (mkRaw xs cp).blk (List.replicate N (none : Option α)) 0 xs.length
      = xs.map some ++ List.replicate (N - xs.length) (none : Option α) := by
    have e0 : (mkRaw xs cp).blk
        = ([] : List α).map some ++ (xs.map some ++ List.replicate (cp - xs.length) (none : Option α)) := by
      simp [mkRaw]
    have e1 : List.replicate N (none : Option α)
        = ([] : Block α) ++ (List.replicate xs.length (none : Option α) ++ List.replicate (N - xs.length) (none : Option α)) := by
      rw [List.nil_append, ← List.replicate_add]
      congr 1
      omega
    rw [e0, e1]
    rw [copyRange_spec xs [] (List.replicate (cp - xs.length) (none : Option α)) []
      (List.replicate xs.length (none : Option α)) (List.replicate (N - xs.length) (none : Option α))
      0 xs.length rfl rfl rfl (by simp)]
    simp
  rw [hcpy]

/-- reserve succeeds whenever newcap can hold the live elements. -/
theorem reserveOp_ok {α : Type} (xs : List α) (cp N : Nat) (h : xs.length ≤ N) :
    reserveOp (mkRaw xs cp) N
      = .ok ⟨xs.map some ++ List.replicate (N - xs.length) (none : Option α), xs.length⟩ := by
  unfold reserveOp
  have hsz : (mkRaw xs cp).sz = xs.length := rfl
  rw [if_neg (by omega)]
  rw [reserveRaw_canon xs cp N h]

/-- The growth step of the inserts leaves the live elements alone and
ends with at least count raw slots after them. -/
theorem growFor_canon {α : Type} (xs : List α) (cp c : Nat) (h : xs.length ≤ cp) :
    ∃ m1, growFor (mkRaw xs cp) c
        = .ok ⟨xs.map some ++ List.replicate m1 (none : Option α), xs.length⟩ ∧ c ≤ m1 := by
  unfold growFor
  have hsz : (mkRaw xs cp).sz = xs.length := rfl
  have hlen : (mkRaw xs cp).blk.length = cp := by
    simp only [mkRaw, List.length_append, List.length_map, List.length_replicate]
    omega
  by_cases hg : xs.length + c > cp
  · refine ⟨max (cp * 2) (xs.length + c) - xs.length, ?_, by omega⟩
    rw [hsz, hlen, if_pos hg]
    exact reserveOp_ok xs cp _ (by omega)
  · refine ⟨cp - xs.length, ?_, by omega⟩
    rw [hsz, hlen, if_neg hg]
    rfl

/-- One emplace_back on a canonically shaped container appends the new
element, keeping the canonical shape. -/
theorem emplaceBackRaw_canon {α : Type} (ys : List α) (m : Nat) (x : α) :
    ∃ m2, emplaceBackRaw (⟨ys.map some ++ List.replicate m (none : Option α), ys.length⟩ : RawVec α) x
        = ⟨(ys ++ [x]).map some ++ List.replicate m2 (none : Option α), ys.length + 1⟩ := by
  cases m with
  | succ m0 =>
    refine ⟨m0, ?_⟩
    simp only [emplaceBackRaw]
    rw [if_neg (by simp only [List.length_append, List.length_map, List.length_replicate]; omega)]
    have hset : (ys.map some ++ List.replicate (m0+1) (none : Option α)).set ys.length (some x)
        = (ys ++ [x]).map some ++ List.replicate m0 (none : Option α) := by
      have e : ys.map some ++ List.replicate (m0+1) (none : Option α)
          = ys.map some ++ ((none : Option α) :: List.replicate m0 none) := by
        simp [List.replicate_succ]
      rw [e, set_junction (ys.map some) none (List.replicate m0 none) (some x) ys.length (by simp)]
      simp
    rw [hset]
  | zero =>
    by_cases hy : 0 < ys.length
    · refine ⟨ys.length - 1, ?_⟩
      simp only [emplaceBackRaw]
      rw [if_pos (by simp)]
      rw [if_pos (by simpa using hy)]
      have hinit : (List.replicate ((ys.map some ++ List.replicate 0 (none : Option α)).length * 2)
            (none : Option α)).set ys.length (some x)
          = List.replicate ys.length (none : Option α)
            ++ (some x :: List.replicate (ys.length - 1) (none : Option α)) := by
        have hlen2 : (ys.map some ++ List.replicate 0 (none : Option α)).length * 2
            = ys.length + (1 + (ys.length - 1)) := by
          simp only [List.length_append, List.length_map, List.length_replicate]
          omega
        rw [hlen2, List.replicate_add, List.replicate_add]
        have e : List.replicate ys.length (none : Option α)
              ++ (List.replicate 1 (none : Option α) ++ List.replicate (ys.length - 1) (none : Option α))
            = List.replicate ys.length (none : Option α)
              ++ ((none : Option α) :: List.replicate (ys.length - 1) (none : Option α)) := rfl
        rw [e, set_junction (List.replicate ys.length (none : Option α)) none
          (List.replicate (ys.length - 1) none) (some x) ys.length (by simp)]
      rw [hinit]
      have hcpy : copyRange (ys.map some ++ List.replicate 0 (none : Option α))
            (List.replicate ys.length (none : Option α)
              ++ (some x :: List.replicate (ys.length - 1) (none : Option α))) 0
            ys.length
          = ys.map some ++ (some x :: List.replicate (ys.length - 1) (none : Option α)) := by
        have e0 : ys.map some ++ List.replicate 0 (none : Option α)
            = ([] : List α).map some ++ (ys.map some ++ ([] : Block α)) := by simp
        have e1 : List.replicate ys.length (none : Option α)
              ++ (some x :: List.replicate (ys.length - 1) (none : Option α))
            = ([] : Block α) ++ (List.replicate ys.length (none : Option α)
              ++ (some x :: List.replicate (ys.length - 1) (none : Option α))) := by simp
        rw [e0, e1]
        rw [copyRange_spec ys [] ([] : Block α) []
          (List.replicate ys.length (none : Option α))
          (some x :: List.replicate (ys.length - 1) (none : Option α))
          0 ys.length rfl rfl rfl (by simp)]
        simp
      rw [hcpy]
      simp
    · have hys : ys = [] := List.eq_nil_of_length_eq_zero (by omega)
      subst hys
      exact ⟨0, rfl⟩

/-- Folding emplace_back over a list appends all its elements in
order, keeping the canonical shape. -/
theorem pushAll_canon {α : Type} (xs : List α) :
    ∀ (ys : List α) (m : Nat),
      ∃ m2, xs.foldl emplaceBackRaw
          (⟨ys.map some ++ List.replicate m (none : Option α), ys.length⟩ : RawVec α)
        = ⟨(ys ++ xs).map some ++ List.replicate m2 (none : Option α), ys.length + xs.length⟩ := by
  induction xs with
  | nil => intro ys m; exact ⟨m, by simp⟩
  | cons x xs2 ih =>
    intro ys m
    obtain ⟨m2, h1⟩ := emplaceBackRaw_canon ys m x
    obtain ⟨m3, h2⟩ := ih (ys ++ [x]) m2
    refine ⟨m3, ?_⟩
    rw [List.foldl_cons, h1]
    have e : (ys.length + 1) = (ys ++ [x]).length := by simp
    rw [e, h2]
    simp only [RawVec.mk.injEq]
    refine ⟨by simp, ?_⟩
    simp only [List.length_append, List.length_cons, List.length_nil]
    omega

/-- The std::equal loop decides list equality for equal-length lists. -/
theorem eqLoop_iff_eq {α : Type} [DecidableEq α] :
    ∀ (xs ys : List α), xs.length = ys.length → (eqLoop xs ys = true ↔ xs = ys) := by
  intro xs
  induction xs with
  | nil =>
    intro ys h
    cases ys with
    | nil => simp [eqLoop]
    | cons y ys2 => simp at h
  | cons x xs2 ih =>
    intro ys h
    cases ys with
    | nil => simp at h
    | cons y ys2 =>
      simp only [eqLoop]
      by_cases hxy : x = y
      · subst hxy
        rw [if_pos rfl, ih ys2 (by simpa using h)]
        simp
      · rw [if_neg hxy]
        simp [hxy]

/-- Equal-length lists are equal iff they agree position by position. -/
theorem list_eq_iff_getD :
    ∀ (xs ys : List Int), xs.length = ys.length →
      (xs = ys ↔ ∀ i, i < xs.length → xs.getD i 0 = ys.getD i 0) := by
  intro xs
  induction xs with
  | nil =>
    intro ys h
    constructor
    · intro he i hi; simp at hi
    · intro _
      cases ys with
      | nil => rfl
      | cons y ys2 => simp at h
  | cons x xs2 ih =>
    intro ys h
    cases ys with
    | nil => simp at h
    | cons y ys2 =>
      constructor
      · intro he i hi; rw [he]
      · intro hp
        have h0 : x = y := by simpa using hp 0 (by simp)
        subst h0
        have htail : xs2 = ys2 := by
          rw [ih ys2 (by simpa using h)]
          intro i hi
          simpa using hp (i+1) (by simp; omega)
        rw [htail]

/-- The std::lexicographical_compare loop decides the lexicographic
strict order on lists. -/
theorem lexLoop_iff_lex :
    ∀ (xs ys : List Int), (lexLoop xs ys = true ↔ List.Lex (· < ·) xs ys) := by
  intro xs
  induction xs with
  | nil =>
    intro ys
    cases ys with
    | nil =>
      simp only [lexLoop, List.isEmpty_nil, Bool.not_true]
      constructor
      · intro h; simp at h
      · intro h; cases h
    | cons y ys2 =>
      simp only [lexLoop, List.isEmpty_cons, Bool.not_false]
      exact ⟨fun _ => List.Lex.nil, fun _ => by simp⟩
  | cons x xs2 ih =>
    intro ys
    cases ys with
    | nil =>
      simp only [lexLoop]
      constructor
      · intro h; simp at h
      · intro h; cases h
    | cons y ys2 =>
      simp only [lexLoop]
      rcases lt_trichotomy x y with hxy | hxy | hxy
      · rw [if_pos hxy]
        exact ⟨fun _ => List.Lex.rel hxy, fun _ => rfl⟩
      · subst hxy
        rw [if_neg (lt_irrefl x), if_neg (lt_irrefl x), ih ys2]
        constructor
        · exact fun h => List.Lex.cons h
        · intro h
          cases h with
          | cons h2 => exact h2
          | rel h2 => exact absurd h2 (lt_irrefl x)
      · rw [if_neg (by omega), if_pos hxy]
        constructor
        · intro h; simp at h
        · intro h
          cases h with
          | rel h2 => exact absurd h2 (by omega)
          | cons h2 => exact absurd hxy (lt_irrefl x)

/-! ### Claim theorems -/

/-- Claim C1: for every sequence of push_back calls starting from a
default-constructed container, size() equals the number of pushed
values and the element at index i is the i-th pushed value, for every
i below the length (elements appear in push order). -/
theorem push_back_sequence (xs : List Int) (i : Nat) :
    (pushAllRaw xs).sz = xs.length
  ∧ (i < xs.length → blockGet (pushAllRaw xs).blk i = some (xs.getD i 0)) := by
  obtain ⟨m2, h⟩ := pushAll_canon xs [] 0
  have hP : pushAllRaw xs
      = ⟨(([] : List Int) ++ xs).map some ++ List.replicate m2 (none : Option Int),
         List.length ([] : List Int) + xs.length⟩ := h
  simp only [List.nil_append, List.length_nil, Nat.zero_add] at hP
  constructor
  · rw [hP]
  · intro hi
    rw [hP]
    show (xs.map some ++ List.replicate m2 (none : Option Int)).getD i none = some (xs.getD i 0)
    rw [List.getD_append _ _ _ i (by simpa using hi)]
    exact getD_map_some 0 xs i hi

/-- Witness for C1 at the pushed sequence 4, 5, 6 and index 1. -/
theorem push_back_sequence_witness :
    (pushAllRaw [(4:Int), 5, 6]).sz = 3
  ∧ blockGet (pushAllRaw [(4:Int), 5, 6]).blk 1 = some 5 := by
  have h := push_back_sequence [(4:Int), 5, 6] 1
  exact ⟨h.1, h.2 (by decide)⟩

/-- Claim C2: when element construction fails during reserve or during
a push_back that triggers growth, the container afterwards has the
size, capacity and element contents it had before the call: the new
element is constructed into the new block first and the failure paths
only ever touch the new block. -/
theorem strong_guarantee_on_failure (o : Oracle) (k : Nat) (r w : RawVec Int)
    (newcap : Nat) (x : Int) :
    (reserveFRaw o k r newcap = .error w → w.sz = r.sz ∧ w.cap = r.cap ∧ w.blk = r.blk)
  ∧ (emplaceBackFRaw o k r x = .error w → w.sz = r.sz ∧ w.cap = r.cap ∧ w.blk = r.blk) := by
  constructor
  · intro h
    unfold reserveFRaw at h
    split at h
    · simp at h
    · injection h with h2
      subst h2
      exact ⟨rfl, rfl, rfl⟩
  · intro h
    simp only [emplaceBackFRaw] at h
    by_cases h1 : r.sz = r.blk.length
    · rw [if_pos h1] at h
      by_cases h2 : o k = true
      · rw [if_pos h2] at h
        rcases hm : moveLoopF o r.blk
            ((List.replicate (if 0 < r.blk.length then r.blk.length * 2 else 1)
              (none : Option Int)).set r.sz (some x)) 0 (k+1) r.sz with p | e
        · rw [hm] at h
          simp at h
          subst h
          exact ⟨rfl, rfl, rfl⟩
        · rw [hm] at h
          rcases e with ⟨nb, k2⟩
          simp at h
      · rw [if_neg h2] at h
        injection h with h3
        subst h3
        exact ⟨rfl, rfl, rfl⟩
    · rw [if_neg h1] at h
      by_cases h2 : o k = true
      · rw [if_pos h2] at h
        simp at h
      · rw [if_neg h2] at h
        injection h with h3
        subst h3
        exact ⟨rfl, rfl, rfl⟩

/-- Witness for C2: an oracle that fails the very first construct call
makes the growth path of emplace_back on a full two-element container
fail, and the container is returned unchanged. -/
theorem strong_guarantee_on_failure_witness :
    (mkRaw [(3:Int), 4] 2).sz = (mkRaw [(3:Int), 4] 2).sz
  ∧ (mkRaw [(3:Int), 4] 2).cap = (mkRaw [(3:Int), 4] 2).cap
  ∧ (mkRaw [(3:Int), 4] 2).blk = (mkRaw [(3:Int), 4] 2).blk :=
  (strong_guarantee_on_failure (fun _ => false) 0 (mkRaw [(3:Int), 4] 2)
    (mkRaw [(3:Int), 4] 2) 5 9).2 rfl

/-- Claim C3 is a code bug: reserve performs no newcap-versus-capacity
comparison, so reserve(2) on a container {5, 6} of capacity 3 shrinks
the capacity to 2, and reserve(0) on {5} would construct past the new
block (the ub branch). The claim says such calls leave the container
unchanged. -/
theorem reserve_shrinks_capacity :
    reserveOp (mkRaw [(5:Int), 6] 3) 2 = .ok (mkRaw [(5:Int), 6] 2)
  ∧ (mkRaw [(5:Int), 6] 3).cap = 3
  ∧ (mkRaw [(5:Int), 6] 2).cap = 2
  ∧ reserveOp (mkRaw [(5:Int)] 1) 0 = .error .ub :=
  ⟨rfl, rfl, rfl, rfl⟩

/-- Claim C6: equality is size plus elementwise equality; less-than is
size-first, with elementwise lexicographic comparison only between
equal sizes; the other four operators are the recorded derivations. -/
theorem comparison_operators_spec (a b : Vec Int) :
    (vecEq a b = true ↔ (a.size = b.size ∧ ∀ i, i < a.size → a.elems.getD i 0 = b.elems.getD i 0))
  ∧ (a.size ≠ b.size → (vecLt a b = true ↔ a.size < b.size))
  ∧ (a.size = b.size → (vecLt a b = true ↔ List.Lex (· < ·) a.elems b.elems))
  ∧ vecNe a b = !(vecEq a b)
  ∧ vecGt a b = vecLt b a
  ∧ vecLe a b = !(vecLt b a)
  ∧ vecGe a b = !(vecLt a b) := by
  refine ⟨?_, ?_, ?_, rfl, rfl, rfl, rfl⟩
  · unfold vecEq
    by_cases hs : a.size = b.size
    · have hs2 : a.elems.length = b.elems.length := hs
      simp only [hs, beq_self_eq_true, Bool.true_and]
      rw [eqLoop_iff_eq a.elems b.elems hs2, list_eq_iff_getD a.elems b.elems hs2]
      unfold Vec.size
      simp [hs2]
    · have hb : (a.size == b.size) = false := by simpa using hs
      rw [hb, Bool.false_and]
      simp [hs]
  · intro hs
    unfold vecLt
    rw [if_pos hs]
    simp
  · intro hs
    unfold vecLt
    rw [if_neg (by simpa using hs)]
    exact lexLoop_iff_lex a.elems b.elems

/-- Witness for C6: the two-element container {9, 9} compares less
than the three-element {1, 2, 3} purely by size. -/
theorem comparison_operators_witness :
    vecLt (⟨true, [9, 9], 2⟩ : Vec Int) ⟨true, [1, 2, 3], 3⟩ = true :=
  ((comparison_operators_spec ⟨true, [9, 9], 2⟩ ⟨true, [1, 2, 3], 3⟩).2.1
    (by decide)).mpr (by decide)

/-- Claim C7 (amended): single-element insert, initializer-list insert
and range insert signal out-of-range for every position outside
[begin, end], and so does insert(pos, count, value) when count is
nonzero; the count-copies form with count == 0 returns before the
validation (see the counterexample). -/
theorem insert_position_validation (r : RawVec Int) (pos : Int) (v : Int)
    (src : List Int) (f l : Int) (cnt : Nat) (h : pos < 0 ∨ (r.sz : Int) < pos) :
    insertImplRaw r pos v = .error .outOfRange
  ∧ insertIlistRaw r pos src = .error .outOfRange
  ∧ insertDispatchSelf r pos f l = .error .outOfRange
  ∧ (cnt ≠ 0 → insertCountRaw r pos cnt v = .error .outOfRange) := by
  refine ⟨?_, ?_, ?_, ?_⟩
  · unfold insertImplRaw; rw [if_pos h]
  · unfold insertIlistRaw; rw [if_pos h]
  · unfold insertDispatchSelf; rw [if_pos h]
  · intro hc; unfold insertCountRaw; rw [if_neg hc, if_pos h]

/-- Witness for C7 at position 7 on a one-element container. -/
theorem insert_position_validation_witness :
    insertImplRaw (mkRaw [(1:Int)] 1) 7 9 = .error .outOfRange
  ∧ insertCountRaw (mkRaw [(1:Int)] 1) 7 2 9 = .error .outOfRange := by
  have h := insert_position_validation (mkRaw [(1:Int)] 1) 7 9 [3] 0 1 2 (by decide)
  exact ⟨h.1, h.2.2.2 (by decide)⟩

/-- Counterexample for C7: insert(pos, 0, value) returns the early
count == 0 result without validating pos, even though pos = 5 is far
outside [begin, end] of a one-element container. -/
theorem insert_count_zero_skips_validation :
    insertCountRaw (mkRaw [(1:Int)] 1) 5 0 9 = .ok (mkRaw [(1:Int)] 1, 5)
  ∧ ((mkRaw [(1:Int)] 1).sz : Int) < 5 :=
  ⟨rfl, by decide⟩

/-- Claim C8 (amended): after move assignment into a distinct
container the destination has taken over the source block, elements
and capacity; the source block pointer is cleared and its size IS
reset to zero, while its reported capacity is not reset. -/
theorem move_assign_spec (dst src : Vec Int) :
    (Vec.moveAssign dst src).1.alloc = src.alloc
  ∧ (Vec.moveAssign dst src).1.elems = src.elems
  ∧ (Vec.moveAssign dst src).1.cap = src.cap
  ∧ (Vec.moveAssign dst src).2.alloc = false
  ∧ (Vec.moveAssign dst src).2.size = 0
  ∧ (Vec.moveAssign dst src).2.cap = src.cap :=
  ⟨rfl, rfl, rfl, rfl, rfl, rfl⟩

/-- Counterexample for C8 as stated: the source of a move assignment
had size 1, but afterwards reports size 0 - its size is reset, contrary
to the claim that size is not reset. -/
theorem move_assign_clears_source_size :
    (Vec.moveAssign (Vec.new : Vec Int) ⟨true, [7], 1⟩).2.size = 0
  ∧ (⟨true, [7], 1⟩ : Vec Int).size = 1 :=
  ⟨rfl, rfl⟩

/-- Claim C9 (amended): empty() is true exactly when the block pointer
is unset; on any container whose block is allocated, clear() leaves
empty() false with size 0. A moved-from source falsifies the claim
form quantified over nonzero capacity (see the counterexample). -/
theorem empty_tracks_pointer (v : Vec Int) :
    (Vec.empty v = true ↔ v.alloc = false)
  ∧ (v.alloc = true → Vec.empty (Vec.clear v) = false ∧ (Vec.clear v).size = 0) := by
  constructor
  · unfold Vec.empty
    by_cases h : v.alloc = false
    · simp [h]
    · simp [h]
  · intro h
    unfold Vec.empty Vec.clear
    simp [h, Vec.size]

/-- Witness for C9 on a cleared one-element container. -/
theorem empty_tracks_pointer_witness :
    Vec.empty (Vec.clear (⟨true, [(5:Int)], 1⟩ : Vec Int)) = false
  ∧ (Vec.clear (⟨true, [(5:Int)], 1⟩ : Vec Int)).size = 0 :=
  (empty_tracks_pointer ⟨true, [(5:Int)], 1⟩).2 rfl

/-- Counterexample for C9 as stated: the source left behind by a move
assignment reports capacity 1 and size 0 but empty() = true, because
its block pointer is cleared while cap_ is not reset. -/
theorem moved_from_empty_despite_capacity :
    0 < (Vec.moveAssign (Vec.new : Vec Int) ⟨true, [7], 1⟩).2.cap
  ∧ (Vec.moveAssign (Vec.new : Vec Int) ⟨true, [7], 1⟩).2.size = 0
  ∧ Vec.empty (Vec.moveAssign (Vec.new : Vec Int) ⟨true, [7], 1⟩).2 = true := by
  decide

/-- Claim C10: the single-position erase bounds check accepts
pos == end() - the call is never signalled out-of-range there - and
the operation then destroys the slot at index size(), which holds no
live element, reaching the ub branch of the embedding; the
empty container (xs = []) is the instance where the source would then
also underflow the loop bound and the size decrement. -/
theorem erase_end_accepted_then_ub (xs : List Int) (cp : Nat) :
    eraseSingleRaw (mkRaw xs cp) (xs.length : Int) = .error .ub := by
  unfold eraseSingleRaw
  have hsz : (mkRaw xs cp).sz = xs.length := rfl
  rw [hsz, if_neg (by omega)]
  have hg : blockGet (mkRaw xs cp).blk ((xs.length : Int)).toNat = none := by
    rw [Int.toNat_natCast]
    show (xs.map some ++ List.replicate (cp - xs.length) (none : Option Int)).getD xs.length none = none
    rw [List.getD_append_right _ _ _ _ (by simp)]
    exact getD_replicate_self none _ _
  simp only [hg]

/-- shiftLoop_spec restated for any positive shift count. -/
theorem shiftLoop_spec2 {α : Type} (M P : List α) (c : Nat) (T : Block α) (idx i : Nat)
    (hc : 1 ≤ c) (hidx : idx = P.length) (hi : i = P.length + M.length) :
    shiftLoop idx c (P.map some ++ (M.map some ++ (List.replicate c (none : Option α) ++ T))) i
      = P.map some ++ (List.replicate c (none : Option α) ++ (M.map some ++ T)) := by
  obtain ⟨c0, rfl⟩ : ∃ c0, c = c0 + 1 := ⟨c - 1, by omega⟩
  exact shiftLoop_spec M P c0 T idx i hidx hi

/-- eraseShiftLoop_spec restated for any positive gap size. -/
theorem eraseShiftLoop_spec2 {α : Type} (B A : List α) (c : Nat) (T : Block α) (idxf i k : Nat)
    (hc : 1 ≤ c) (hf : idxf = A.length) (hi : i = A.length + c) (hk : k = B.length) :
    eraseShiftLoop (A.map some ++ (List.replicate c (none : Option α) ++ (B.map some ++ T))) idxf i k
      = ((A ++ B).map some ++ (List.replicate c (none : Option α) ++ T), A.length + B.length) := by
  obtain ⟨c0, rfl⟩ : ∃ c0, c = c0 + 1 := ⟨c - 1, by omega⟩
  exact eraseShiftLoop_spec B A c0 T idxf i k hf hi hk

/-- Claim C4 (amended): erasing a nonempty range [i, j) with
i < j <= n removes exactly those positions, keeps the relative order
of the rest, yields size n - (j - i), and does not reallocate (the
result is the same cp-slot block shape); the returned offset is the
final compaction index i + (n - j). Erasing an empty range [i, i)
still runs the compaction loop, which re-constructs every tail element
onto itself and then destroys it (see the counterexample). -/
theorem erase_range_spec (xs : List Int) (cp i j : Nat)
    (hcp : xs.length ≤ cp) (hij : i < j) (hj : j ≤ xs.length) :
    eraseRangeRaw (mkRaw xs cp) (i : Int) (j : Int)
      = .ok (mkRaw (xs.take i ++ xs.drop j) cp, i + (xs.length - j)) := by
  have hsz : (mkRaw xs cp).sz = xs.length := rfl
  have hi2 : i ≤ xs.length := by omega
  have hxs : xs = xs.take i ++ ((xs.drop i).take (j - i) ++ xs.drop j) := by
    have h1 : xs.take j = xs.take i ++ (xs.drop i).take (j - i) := by
      rw [← List.take_add]
      congr 1
      omega
    calc xs = xs.take j ++ xs.drop j := (List.take_append_drop j xs).symm
      _ = (xs.take i ++ (xs.drop i).take (j - i)) ++ xs.drop j := by rw [h1]
      _ = xs.take i ++ ((xs.drop i).take (j - i) ++ xs.drop j) := by rw [List.append_assoc]
  have hA : (xs.take i).length = i := by rw [List.length_take]; omega
  have hMid : ((xs.drop i).take (j - i)).length = j - i := by
    rw [List.length_take, List.length_drop]
    omega
  have hB : (xs.drop j).length = xs.length - j := by rw [List.length_drop]
  have hmap : xs.map some
      = (xs.take i).map some ++ (((xs.drop i).take (j - i)).map some ++ (xs.drop j).map some) := by
    conv_lhs => rw [hxs]
    rw [List.map_append, List.map_append]
  have hblk : (mkRaw xs cp).blk
      = (xs.take i).map some ++ (((xs.drop i).take (j - i)).map some
        ++ ((xs.drop j).map some ++ List.replicate (cp - xs.length) (none : Option Int))) := by
    show xs.map some ++ List.replicate (cp - xs.length) (none : Option Int) = _
    rw [hmap]
    simp [List.append_assoc]
  simp only [eraseRangeRaw]
  rw [hsz]
  rw [if_neg (by omega), if_neg (by omega)]
  rw [show ((j : Int) - (i : Int)).toNat = j - i from by omega,
    show ((i : Int)).toNat = i from by omega,
    show ((j : Int)).toNat = j from by omega]
  rw [hblk]
  rw [destroyRange_spec (((xs.drop i).take (j - i)).map some) ((xs.take i).map some)
    ((xs.drop j).map some ++ List.replicate (cp - xs.length) (none : Option Int))
    i (j - i) (by rw [List.length_map, hA]) (by rw [List.length_map, hMid])]
  rw [List.length_map, hMid]
  rw [eraseShiftLoop_spec2 (xs.drop j) (xs.take i) (j - i)
    (List.replicate (cp - xs.length) (none : Option Int)) i j (xs.length - j)
    (by omega) (by rw [hA]) (by rw [hA]; omega) (by rw [hB])]
  have hc4 : cp - (xs.take i ++ xs.drop j).length = (j - i) + (cp - xs.length) := by
    simp only [List.length_append, List.length_take, List.length_drop]
    omega
  simp only [Except.ok.injEq, Prod.mk.injEq, RawVec.mk.injEq, mkRaw]
  refine ⟨⟨?_, ?_⟩, ?_⟩
  · rw [hc4, List.replicate_add]
  · simp only [List.length_append, List.length_take, List.length_drop]
    omega
  · rw [hA, hB]

/-- Witness for C4: erasing [1, 3) from {1, 2, 3, 4} of capacity 4
leaves {1, 4} in the same four-slot block. -/
theorem erase_range_spec_witness :
    eraseRangeRaw (mkRaw [(1:Int), 2, 3, 4] 4) 1 3 = .ok (mkRaw [(1:Int), 4] 4, 2) := by
  have h := erase_range_spec [(1:Int), 2, 3, 4] 4 1 3 (by decide) (by decide) (by decide)
  simpa using h

/-- Counterexample for C4 as stated (the i = j case): erasing the
empty range [0, 0) from {7} leaves size 1 but the compaction loop has
move-constructed the element onto itself and destroyed it, so the slot
no longer holds the original element. -/
theorem erase_empty_range_destroys_tail :
    eraseRangeRaw (mkRaw [(7:Int)] 1) 0 0 = .ok (⟨[none], 1⟩, 1)
  ∧ (mkRaw [(7:Int)] 1).blk = [some 7] :=
  ⟨rfl, rfl⟩

/-- Claim C5: a range insert whose source [f, l) lies inside the
container itself passes the overlap test, materialises the slice into
an independent temporary before shifting, and produces the original
sequence with a copy of the original sub-range inserted before
position p; the returned offset is p. -/
theorem insert_aliased_range_spec (xs : List Int) (cp p f l : Nat)
    (hcp : xs.length ≤ cp) (hp : p ≤ xs.length) (hfl : f ≤ l) (hl : l ≤ xs.length) :
    ∃ c2, insertDispatchSelf (mkRaw xs cp) (p : Int) (f : Int) (l : Int)
        = .ok (mkRaw (xs.take p ++ ((xs.drop f).take (l - f) ++ xs.drop p)) c2, p) := by
  have hsz : (mkRaw xs cp).sz = xs.length := rfl
  by_cases hfl2 : f = l
  · refine ⟨cp, ?_⟩
    simp only [insertDispatchSelf]
    rw [hsz]
    rw [if_neg (by omega), if_neg (by omega)]
    rw [show ((l : Int) - (f : Int)).toNat = l - f from by omega,
      show ((p : Int)).toNat = p from by omega]
    rw [if_pos (by omega)]
    rw [show xs.take p ++ ((xs.drop f).take (l - f) ++ xs.drop p) = xs from by
      rw [show l - f = 0 from by omega]
      simp [List.take_append_drop]]
  obtain ⟨m1, hgrow, hm1⟩ := growFor_canon xs cp (l - f) hcp
  have hxs : xs = xs.take f ++ ((xs.drop f).take (l - f) ++ xs.drop l) := by
    have h1 : xs.take l = xs.take f ++ (xs.drop f).take (l - f) := by
      rw [← List.take_add]
      congr 1
      omega
    calc xs = xs.take l ++ xs.drop l := (List.take_append_drop l xs).symm
      _ = (xs.take f ++ (xs.drop f).take (l - f)) ++ xs.drop l := by rw [h1]
      _ = xs.take f ++ ((xs.drop f).take (l - f) ++ xs.drop l) := by rw [List.append_assoc]
  have hF : (xs.take f).length = f := by rw [List.length_take]; omega
  have hMid : ((xs.drop f).take (l - f)).length = l - f := by
    rw [List.length_take, List.length_drop]
    omega
  have hP : (xs.take p).length = p := by rw [List.length_take]; omega
  have hmap : xs.map some
      = (xs.take f).map some ++ (((xs.drop f).take (l - f)).map some ++ (xs.drop l).map some) := by
    conv_lhs => rw [hxs]
    rw [List.map_append, List.map_append]
  have hblk : (mkRaw xs cp).blk
      = (xs.take f).map some ++ (((xs.drop f).take (l - f)).map some
        ++ ((xs.drop l).map some ++ List.replicate (cp - xs.length) (none : Option Int))) := by
    show xs.map some ++ List.replicate (cp - xs.length) (none : Option Int) = _
    rw [hmap]
    simp [List.append_assoc]
  refine ⟨xs.length + (l - f) + (m1 - (l - f)), ?_⟩
  simp only [insertDispatchSelf]
  rw [hsz]
  rw [if_neg (by omega), if_neg (by omega)]
  rw [show ((l : Int) - (f : Int)).toNat = l - f from by omega,
    show ((p : Int)).toNat = p from by omega,
    show ((f : Int)).toNat = f from by omega]
  rw [if_neg (by omega)]
  rw [if_pos (by omega)]
  rw [hblk]
  rw [readRange_spec (((xs.drop f).take (l - f)).map some) ((xs.take f).map some)
    ((xs.drop l).map some ++ List.replicate (cp - xs.length) (none : Option Int))
    f (l - f) (by rw [List.length_map, hF]) (by rw [List.length_map, hMid])]
  simp only [hgrow]
  have hsplit : xs.map some ++ List.replicate m1 (none : Option Int)
      = (xs.take p).map some ++ ((xs.drop p).map some
        ++ (List.replicate (l - f) (none : Option Int)
          ++ List.replicate (m1 - (l - f)) (none : Option Int))) := by
    calc xs.map some ++ List.replicate m1 (none : Option Int)
        = (xs.take p ++ xs.drop p).map some ++ List.replicate m1 (none : Option Int) := by
          rw [List.take_append_drop]
      _ = _ := by
          conv_lhs => rw [show m1 = (l - f) + (m1 - (l - f)) from by omega]
          rw [List.map_append, List.replicate_add, List.append_assoc]
  rw [hsplit]
  rw [shiftLoop_spec2 (xs.drop p) (xs.take p) (l - f)
    (List.replicate (m1 - (l - f)) (none : Option Int)) p xs.length
    (by omega) (by rw [hP]) (by rw [hP, List.length_drop]; omega)]
  rw [writeLoopO_spec (((xs.drop f).take (l - f)).map some) ((xs.take p).map some)
    (List.replicate (l - f) (none : Option Int))
    ((xs.drop p).map some ++ List.replicate (m1 - (l - f)) (none : Option Int))
    p (by rw [List.length_map, hP]) (by rw [List.length_map, hMid, List.length_replicate])]
  have hc2 : xs.length + (l - f) + (m1 - (l - f))
        - (xs.take p ++ ((xs.drop f).take (l - f) ++ xs.drop p)).length
      = m1 - (l - f) := by
    simp only [List.length_append, List.length_take, List.length_drop]
    omega
  simp only [Except.ok.injEq, Prod.mk.injEq, RawVec.mk.injEq, mkRaw]
  refine ⟨⟨?_, ?_⟩, trivial⟩
  · rw [hc2]
    simp only [List.map_append, List.append_assoc]
  · simp only [List.length_append, List.length_take, List.length_drop]
    omega

/-- Witness for C5: inserting the sub-range [0, 2) of {1, 2, 3} before
position 1 of the same container yields {1, 1, 2, 2, 3}. -/
theorem insert_aliased_range_witness :
    ∃ c2, insertDispatchSelf (mkRaw [(1:Int), 2, 3] 3) 1 0 2
        = .ok (mkRaw [(1:Int), 1, 2, 2, 3] c2, 1) := by
  obtain ⟨c2, h⟩ := insert_aliased_range_spec [(1:Int), 2, 3] 3 1 0 2
    (by decide) (by decide) (by decide) (by decide)
  exact ⟨c2, by simpa using h⟩
